import Mathlib

set_option maxHeartbeats 1000000

/-!
Verification development for the `icl` interactive command-line option
picker.  The definitions below are a shallow embedding of the Rust core:

* `CliOption` and its operations — `src/option.rs`
* `build_command` — `src/builder.rs`
* `extract_choices`, `parse_help` and the hand-compiled regular-expression
  matchers they rely on — `src/parser.rs`
* the `App` interaction state machine — `src/tui.rs`

Machine strings are modelled as Lean `String`/`List Char`; the Rust regex
character class `\s` is modelled by `Char.isWhitespace` and `\w` by ASCII
alphanumerics plus underscore (the help texts the program consumes are
ASCII).  Rust regular expressions use leftmost-first (preference) match
semantics; the matchers below enumerate candidate splits in exactly that
preference order.
-/

/-- One extracted command-line flag together with its live interaction
state.  Mirrors `struct CliOption` in `src/option.rs`. -/
structure CliOption where
  short : Option Char
  long : Option String
  description : String
  takes_value : Bool
  value_hint : Option String
  selected : Bool
  value : String
  choices : Option (List String)
  choice_index : Nat
deriving DecidableEq

namespace CliOption

/-- `CliOption::new` (src/option.rs lines 15-34): fresh option,
unselected, empty value, choice index 0. -/
def new (short : Option Char) (long : Option String) (description : String)
    (takes_value : Bool) (value_hint : Option String)
    (choices : Option (List String)) : CliOption :=
  { short := short
    long := long
    description := description
    takes_value := takes_value
    value_hint := value_hint
    selected := false
    value := ""
    choices := choices
    choice_index := 0 }

/-- `CliOption::has_choices`: `choices.as_ref().map(|c| !c.is_empty()).unwrap_or(false)`. -/
def has_choices (o : CliOption) : Bool :=
  (o.choices.map (fun c => !c.isEmpty)).getD false

/-- `CliOption::current_choice`: `choices.as_ref().and_then(|c| c.get(self.choice_index))`. -/
def current_choice (o : CliOption) : Option String :=
  o.choices.bind (fun c => c.get? o.choice_index)

/-- `CliOption::next_choice`: cyclic increment modulo the number of
choices; no-op when `choices` is absent or empty. -/
def next_choice (o : CliOption) : CliOption :=
  match o.choices with
  | some choices =>
      if !choices.isEmpty then
        { o with choice_index := (o.choice_index + 1) % choices.length }
      else o
  | none => o

/-- `CliOption::prev_choice`: cyclic decrement; no-op when `choices` is
absent or empty. -/
def prev_choice (o : CliOption) : CliOption :=
  match o.choices with
  | some choices =>
      if !choices.isEmpty then
        { o with choice_index :=
            if o.choice_index = 0 then choices.length - 1 else o.choice_index - 1 }
      else o
  | none => o

/-- `CliOption::display_flag`. -/
def display_flag (o : CliOption) : String :=
  match o.short, o.long with
  | some s, some l => "-" ++ String.mk [s] ++ ", --" ++ l
  | some s, none => "-" ++ String.mk [s]
  | none, some l => "--" ++ l
  | none, none => ""

/-- `CliOption::to_arg` (src/option.rs lines 73-96): the contribution of
one option to the assembled command. -/
def to_arg (o : CliOption) : Option String :=
  if !o.selected then none
  else
    match (match o.long with
           | some l => some ("--" ++ l)
           | none =>
             match o.short with
             | some s => some ("-" ++ String.mk [s])
             | none => none) with
    | none => none
    | some flag =>
      match o.current_choice with
      | some choice => some (flag ++ " " ++ choice)
      | none =>
        if o.takes_value && !o.value.isEmpty then some (flag ++ " " ++ o.value)
        else if o.takes_value then none
        else some flag

end CliOption

/-- `build_command` (src/builder.rs): base tokens, then the `to_arg` of
every option that yields one, joined by single spaces. -/
def build_command (base_command : List String) (options : List CliOption) : String :=
  let parts : List String :=
    options.foldl
      (fun parts opt =>
        match opt.to_arg with
        | some arg => parts ++ [arg]
        | none => parts)
      base_command
  String.intercalate (" ") parts

/-!
### The choices pattern

`extract_choices` in `src/parser.rs` searches the description with the
fixed regular expression `\[(?:possible\s+)?values?:\s*([^\]]+)\]`
(case-sensitive — the Rust source passes no `(?i)` flag) and, on a match,
splits the capture on commas.  The functions below compile that one fixed
pattern to an explicit matcher with the regex crate's leftmost-first
semantics: the leftmost starting position wins, every match begins at a
literal `[`, the capture `[^\]]+` runs to the first `]`, and the leading
`\s*` gives one character back when the capture would otherwise be empty.
-/

/-- Rust `str::split(',')` at the character level: splitting an empty
string yields one empty piece, `"a,,b"` yields an empty middle piece. -/
def splitOnComma : List Char → List (List Char)
  | [] => [[]]
  | c :: rest =>
    match splitOnComma rest with
    | [] => [[]]
    | h :: t => if c = ',' then [] :: h :: t else (c :: h) :: t

/-- Rust `str::trim` at the character level: strip leading and trailing
whitespace. -/
def trimChars (l : List Char) : List Char :=
  ((l.dropWhile Char.isWhitespace).reverse.dropWhile Char.isWhitespace).reverse

/-- Consume an exact literal from the front of a character list. -/
def dropLit : List Char → List Char → Option (List Char)
  | [], l => some l
  | _ :: _, [] => none
  | c :: cs, x :: xs => if x = c then dropLit cs xs else none

/-- `\s+`: one-or-more whitespace characters, consumed greedily.  In the
choices pattern the component after `\s+` starts with the letter `v`, so
the maximal munch is the only viable split. -/
def dropWs1 : List Char → Option (List Char)
  | [] => none
  | x :: xs =>
    if x.isWhitespace then some (xs.dropWhile Char.isWhitespace) else none

/-- `values?:` — the literal `value`, a greedy optional `s` (preferred,
backtracked when the colon then fails), then the colon. -/
def valuesColon : List Char → Option (List Char)
  | 's' :: ':' :: t => some t
  | ':' :: t => some t
  | _ => none

/-- `\s*([^\]]+)\]`: the capture runs greedily to the first `]`, which
must exist; the leading greedy `\s*` gives one character back when the
capture would otherwise be empty.  `k` is the number of whitespace
characters `\s*` finally keeps. -/
def capturePart (t : List Char) : Option (List Char × List Char) :=
  let p := t.takeWhile (fun c => c ≠ ']')
  match t.drop p.length with
  | ']' :: after =>
    if p.length = 0 then none
    else
      let w := (p.takeWhile Char.isWhitespace).length
      let k := min w (p.length - 1)
      some (p.drop k, after)
  | _ => none

/-- Match `values?:\s*([^\]]+)\]` at the front of `l`; on success return
the capture and the characters after the closing bracket. -/
def matchValuesPart (l : List Char) : Option (List Char × List Char) :=
  (dropLit [ 'v', 'a', 'l', 'u', 'e' ] l).bind
    (fun r => (valuesColon r).bind capturePart)

/-- Match the body of the choices pattern (everything after the opening
`[`): optional `possible\s+` (preferred), then `values?:\s*([^\]]+)\]`.
If `possible\s+` is present but the remainder fails, no other parse from
the same position can succeed (the fallback would need a `v` where `p`
stands), exactly as for the real pattern. -/
def matchChoicesBody (l : List Char) : Option (List Char × List Char) :=
  ((dropLit [ 'p', 'o', 's', 's', 'i', 'b', 'l', 'e' ] l).bind
      (fun r => (dropWs1 r).bind matchValuesPart)).or
    (matchValuesPart l)

/-- Find the leftmost match of the choices pattern: returns the text
before the match, the capture, and the text after the match.  Every match
starts at a literal `[`. -/
def findChoices : List Char → Option (List Char × List Char × List Char)
  | [] => none
  | c :: rest =>
    ((if c = '[' then matchChoicesBody rest else none).map
        (fun x => (([] : List Char), x.1, x.2))).or
      ((findChoices rest).map (fun x => (c :: x.1, x.2.1, x.2.2)))

/-- `extract_choices` (src/parser.rs lines 4-27): find a bracketed
enumeration, split its capture on commas, trim the entries and drop the
empty ones; when at least one entry remains, return the description with
the first matched fragment removed (and trimmed) together with the
choices, otherwise return the description unchanged. -/
def extract_choices (description : String) : String × Option (List String) :=
  match findChoices description.toList with
  | some (before, cap, after) =>
    let choices : List String :=
      ((((splitOnComma cap).map trimChars).filter (fun s => !s.isEmpty)).map String.mk)
    if !choices.isEmpty then
      (String.mk (trimChars (before ++ after)), some choices)
    else (description, none)
  | none => (description, none)

/-!
### The line patterns

`parse_help` (src/parser.rs lines 29-117) runs three multiline-anchored
patterns with `captures_iter`:

* primary: optional `-x,?` short group, optional `--long` group, optional
  `...`, optional value placeholder (`<HINT>` after `=` or whitespace, or
  `=WORD`), two-or-more whitespace, description up to the line end;
* simple fallback: `-x`, two-or-more whitespace, description;
* long-only fallback: `--long`, optional value placeholder, two-or-more
  whitespace, description.

Every pattern is anchored with `(?m)^ ... (.+)$`, so a match starts at a
line start and ends at a line end (`.` never matches a newline), though
greedy whitespace inside a match may cross newlines.  The matchers below
enumerate the candidate splits of each quantifier in the regex engine's
preference order (greedy, leftmost alternative first, earlier components
backtracking last) and take the first complete parse.  `\w` is modelled
as ASCII alphanumerics plus underscore.
-/

/-- A character of the class `[\w-]`. -/
def isWordDash (c : Char) : Bool := c.isAlphanum || c = '_' || c = '-'

/-- Rests after a greedy `p*`, longest munch first. -/
def greedyRests (p : Char → Bool) (l : List Char) : List (List Char) :=
  let run := (l.takeWhile p).length
  (List.range (run + 1)).map (fun i => l.drop (run - i))

/-- Rests after a greedy `p` repeated at least twice (`\s` twice or more in
the source patterns), longest munch first. -/
def atLeastTwoRests (p : Char → Bool) (l : List Char) : List (List Char) :=
  let run := (l.takeWhile p).length
  (List.range (run - 1)).map (fun i => l.drop (run - i))

/-- Splits after a greedy `p+`: pairs of (captured prefix, rest), longest
capture first. -/
def plusSplits (p : Char → Bool) (l : List Char) : List (List Char × List Char) :=
  let run := (l.takeWhile p).length
  (List.range run).map (fun i => (l.take (run - i), l.drop (run - i)))

/-- Candidates for the optional short-flag group `(-([a-zA-Z]),?\s*)?`:
each candidate is the captured letter (if the group matched) and the rest
of the line, in preference order — group present first, inside it the
comma consumed first, inside that the longest whitespace munch first. -/
def tryG1 (l : List Char) : List (Option Char × List Char) :=
  (match l with
   | '-' :: c :: rest =>
     if c.isAlpha then
       ((match rest with
         | ',' :: r => [r, rest]
         | _ => [rest]).flatMap (fun r => greedyRests Char.isWhitespace r)).map
         (fun r => ((some c : Option Char), r))
     else []
   | _ => []) ++ [(none, l)]

/-- Candidates for the optional long-flag group `(?:--([\w-]+))?`. -/
def tryG3 (l : List Char) : List (Option (List Char) × List Char) :=
  (match l with
   | '-' :: '-' :: rest =>
     (plusSplits isWordDash rest).map (fun s => ((some s.1 : Option (List Char)), s.2))
   | _ => []) ++ [((none : Option (List Char)), l)]

/-- Candidates for the optional repeat marker `(?:\.\.\.)?`. -/
def tryDots (l : List Char) : List (List Char) :=
  (match l with
   | '.' :: '.' :: '.' :: r => [r]
   | _ => []) ++ [l]

/-- Candidates for the optional value placeholder
`(?:[=\s]<([^>]+)>|=(\S+))?`: the angle-bracket alternative first, then
the `=WORD` alternative, then the group absent. -/
def tryV (l : List Char) : List (Option (List Char) × List Char) :=
  (match l with
   | c :: '<' :: rest =>
     if c = '=' || c.isWhitespace then
       let inner := rest.takeWhile (fun ch => ch ≠ '>')
       match rest.drop inner.length with
       | '>' :: r => if inner.isEmpty then [] else [((some inner : Option (List Char)), r)]
       | _ => []
     else []
   | _ => []) ++
  (match l with
   | '=' :: rest =>
     (plusSplits (fun ch => !ch.isWhitespace) rest).map
       (fun s => ((some s.1 : Option (List Char)), s.2))
   | _ => []) ++ [((none : Option (List Char)), l)]

/-- The final `(.+)$`: the description runs greedily to the next newline
(or the end of input) and must be non-empty.  Returns the description and
the rest of the input (which starts with the newline, if any). -/
def descSplit (l : List Char) : Option (List Char × List Char) :=
  let d := l.takeWhile (fun ch => ch ≠ '\n')
  if d.isEmpty then none else some (d, l.drop d.length)

/-- Captures of the primary pattern: short letter, long name, value hint,
raw description. -/
abbrev PrimCap := Option Char × Option (List Char) × Option (List Char) × List Char

/-- Match the primary pattern at a line start; returns the captures and
the unconsumed rest of the input. -/
def matchPrimaryAt (l : List Char) : Option (PrimCap × List Char) :=
  (greedyRests Char.isWhitespace l).findSome? fun r0 =>
    (tryG1 r0).findSome? fun sr =>
      (tryG3 sr.2).findSome? fun lr =>
        (tryDots lr.2).findSome? fun r3 =>
          (tryV r3).findSome? fun vr =>
            (atLeastTwoRests Char.isWhitespace vr.2).findSome? fun r5 =>
              (descSplit r5).map fun dr => ((sr.1, lr.1, vr.1, dr.1), dr.2)

/-- Match the simple fallback pattern `^\s*(-([a-zA-Z]))\s{2,}(.+)$`. -/
def matchSimpleAt (l : List Char) : Option ((Char × List Char) × List Char) :=
  (greedyRests Char.isWhitespace l).findSome? fun r0 =>
    match r0 with
    | '-' :: c :: rest =>
      if c.isAlpha then
        (atLeastTwoRests Char.isWhitespace rest).findSome? fun r =>
          (descSplit r).map fun dr => ((c, dr.1), dr.2)
      else none
    | _ => none

/-- Match the long-only fallback pattern
`^\s*--([\w-]+)(?:[=\s]<([^>]+)>|=(\S+))?\s{2,}(.+)$`. -/
def matchLongAt (l : List Char) :
    Option ((List Char × Option (List Char) × List Char) × List Char) :=
  (greedyRests Char.isWhitespace l).findSome? fun r0 =>
    match r0 with
    | '-' :: '-' :: rest =>
      (plusSplits isWordDash rest).findSome? fun wr =>
        (tryV wr.2).findSome? fun vr =>
          (atLeastTwoRests Char.isWhitespace vr.2).findSome? fun r3 =>
            (descSplit r3).map fun dr => ((wr.1, vr.1, dr.1), dr.2)
    | _ => none

/-- Skip to the character list just after the next newline. -/
def afterNL (l : List Char) : List Char :=
  (l.dropWhile (fun c => c ≠ '\n')).tail

/-- `captures_iter`: collect successive non-overlapping matches.  All
three patterns are `^`-anchored, so a match can only start at a line
start; when a line start yields no match the scan moves to the next line,
and a successful match ends at a line end, so the scan resumes after that
line's newline.  Every step consumes at least one character of the
remaining input, so fuel `l.length + 1` never runs out. -/
def scanWith (m : List Char → Option (α × List Char)) : Nat → List Char → List α
  | 0, _ => []
  | _ + 1, [] => []
  | fuel + 1, l =>
    match m l with
    | some (a, rest) => a :: scanWith m fuel rest.tail
    | none => scanWith m fuel (afterNL l)

/-- All matches of the primary pattern. -/
def scanPrimary (l : List Char) : List PrimCap :=
  scanWith matchPrimaryAt (l.length + 1) l

/-- All matches of the simple fallback pattern. -/
def scanSimple (l : List Char) : List (Char × List Char) :=
  scanWith matchSimpleAt (l.length + 1) l

/-- All matches of the long-only fallback pattern. -/
def scanLong (l : List Char) : List (List Char × Option (List Char) × List Char) :=
  scanWith matchLongAt (l.length + 1) l

/-- Build an option from a primary-pattern match (src/parser.rs lines
52-69): the raw description is trimmed, choices are extracted from it,
and a candidate is kept only when a short or a long flag was captured. -/
def mkPrimOption (cap : PrimCap) : Option CliOption :=
  let short := cap.1
  let long := cap.2.1.map String.mk
  let value_hint := cap.2.2.1.map String.mk
  let dc := extract_choices (String.mk (trimChars cap.2.2.2))
  if short.isSome || long.isSome then
    some (CliOption.new short long dc.1 (value_hint.isSome || (dc.2).isSome)
      value_hint dc.2)
  else none

/-- Build an option from a simple-fallback match (src/parser.rs lines
73-88; the short capture always participates in a match). -/
def mkSimpleOption (cap : Char × List Char) : CliOption :=
  let dc := extract_choices (String.mk (trimChars cap.2))
  CliOption.new (some cap.1) none dc.1 ((dc.2).isSome) none dc.2

/-- Build an option from a long-only-fallback match (src/parser.rs lines
90-106; the long capture always participates in a match). -/
def mkLongOption (cap : List Char × Option (List Char) × List Char) : CliOption :=
  let value_hint := cap.2.1.map String.mk
  let dc := extract_choices (String.mk (trimChars cap.2.2))
  CliOption.new none (some (String.mk cap.1)) dc.1
    (value_hint.isSome || (dc.2).isSome) value_hint dc.2

/-- The options produced by the primary pass. -/
def primaryOptions (input : String) : List CliOption :=
  (scanPrimary input.toList).filterMap mkPrimOption

/-- The options produced by the two fallback passes, merged in source
order: all simple-pattern options, then all long-only-pattern options. -/
def fallbackOptions (input : String) : List CliOption :=
  (scanSimple input.toList).map mkSimpleOption
    ++ (scanLong input.toList).map mkLongOption

/-- The candidate sequence before deduplication: the fallback passes run
exactly when the primary pass produced no options. -/
def rawOptions (input : String) : List CliOption :=
  if (primaryOptions input).isEmpty then fallbackOptions input
  else primaryOptions input

/-- The escape of one character inside Rust's `{:?}` of a `char`
(simplified `escape_debug`: backslash and quote escapes only; the
control-character escapes are irrelevant here because the parser only
produces ASCII letters as shorts). -/
def escDebugChar (c : Char) : List Char :=
  if c = '\\' then [ '\\', '\\' ]
  else if c = '\'' then [ '\\', '\'' ] else [c]

/-- The escape of one character inside Rust's `{:?}` of a `String`
(simplified `escape_debug`; parsed long names contain only word
characters and dashes, on which the escape is the identity). -/
def escDebugStrChar (c : Char) : List Char :=
  if c = '\\' then [ '\\', '\\' ]
  else if c = '"' then [ '\\', '"' ] else [c]

/-- Rust `{:?}` of an `Option<char>`. -/
def debugOptChar : Option Char → List Char
  | none => [ 'N', 'o', 'n', 'e' ]
  | some c =>
    [ 'S', 'o', 'm', 'e', '(', '\'' ] ++ escDebugChar c ++ [ '\'', ')' ]

/-- Rust `{:?}` of an `Option<String>`. -/
def debugOptString : Option String → List Char
  | none => [ 'N', 'o', 'n', 'e' ]
  | some s =>
    [ 'S', 'o', 'm', 'e', '(', '"' ]
      ++ s.toList.flatMap escDebugStrChar ++ [ '"', ')' ]

/-- The deduplication key `format!("{:?}{:?}", opt.short, opt.long)` of
src/parser.rs line 112. -/
def dedupKey (o : CliOption) : String :=
  String.mk (debugOptChar o.short ++ debugOptString o.long)

/-- `options.retain(|opt| seen.insert(key))` (src/parser.rs lines
110-114): keep an option exactly when its key was not seen before.  The
`HashSet` is modelled by the list of keys inserted so far (only insertion
and membership are used). -/
def dedupByKeyAux : List String → List CliOption → List CliOption
  | _, [] => []
  | seen, o :: rest =>
    if dedupKey o ∈ seen then dedupByKeyAux seen rest
    else o :: dedupByKeyAux (dedupKey o :: seen) rest

/-- `parse_help` (src/parser.rs lines 29-117). -/
def parse_help (input : String) : List CliOption :=
  dedupByKeyAux [] (rawOptions input)

/-!
### The interaction engine (src/tui.rs)
-/

/-- `OutputMode` (src/output.rs). -/
inductive OutputMode
  | print
  | clipboard
  | execute
deriving DecidableEq

/-- `Mode` (src/tui.rs lines 16-20). -/
inductive Mode
  | normal
  | input
deriving DecidableEq

/-- The crossterm key codes the engine reacts to. -/
inductive KeyCode
  | enter
  | esc
  | backspace
  | up
  | down
  | left
  | right
  | char (c : Char)
  | other
deriving DecidableEq

/-- A key event: a key code plus whether Control was held. -/
structure KeyEvent where
  code : KeyCode
  ctrl : Bool
deriving DecidableEq

/-- Remove the last character of a string (Rust `String::pop`; a no-op on
the empty string). -/
def popChar (s : String) : String := String.mk s.toList.dropLast

/-- `App` (src/tui.rs lines 22-30).  ratatui's `ListState` is modelled by
the selected index it stores. -/
structure App where
  options : List CliOption
  base_command : List String
  list_state : Option Nat
  mode : Mode
  input_buffer : String
  should_quit : Bool
  output_mode : Option OutputMode
deriving DecidableEq

namespace App

/-- `App::new` (src/tui.rs lines 33-47): cursor on index 0 when the
option list is non-empty, Normal mode, empty edit buffer. -/
def new (options : List CliOption) (base_command : List String) : App :=
  { options := options
    base_command := base_command
    list_state := if !options.isEmpty then some 0 else none
    mode := Mode.normal
    input_buffer := ""
    should_quit := false
    output_mode := none }

/-- `App::selected_index`. -/
def selected_index (a : App) : Option Nat := a.list_state

/-- `App::selected_option`. -/
def selected_option (a : App) : Option CliOption :=
  a.selected_index.bind (fun i => a.options.get? i)

/-- `App::move_up`: move the cursor up by one, clamped at 0. -/
def move_up (a : App) : App :=
  match a.selected_index with
  | some i => if i > 0 then { a with list_state := some (i - 1) } else a
  | none => a

/-- `App::move_down`: move the cursor down by one, clamped at
`len - 1` (`saturating_sub`). -/
def move_down (a : App) : App :=
  match a.selected_index with
  | some i =>
    if i < a.options.length - 1 then { a with list_state := some (i + 1) }
    else a
  | none => a

/-- `App::toggle_selected` (src/tui.rs lines 73-86): flip `selected` on
the option under the cursor; when the flip turns on a value-taking option
without predefined choices, enter Input mode with the edit buffer seeded
from the option's current value. -/
def toggle_selected (a : App) : App :=
  match a.selected_index with
  | some i =>
    match a.options.get? i with
    | some opt =>
      let opt2 := { opt with selected := !opt.selected }
      let needs_input := opt2.selected && opt2.takes_value && !opt2.has_choices
      let value := opt2.value
      let a2 := { a with options := a.options.set i opt2 }
      if needs_input then { a2 with mode := Mode.input, input_buffer := value }
      else a2
    | none => a
  | none => a

/-- `App::cycle_choice_next` (src/tui.rs lines 88-96): advance the choice
of the option under the cursor only when it is selected and has
choices. -/
def cycle_choice_next (a : App) : App :=
  match a.selected_index with
  | some i =>
    match a.options.get? i with
    | some opt =>
      if opt.has_choices && opt.selected then
        { a with options := a.options.set i opt.next_choice }
      else a
    | none => a
  | none => a

/-- `App::cycle_choice_prev` (src/tui.rs lines 98-106). -/
def cycle_choice_prev (a : App) : App :=
  match a.selected_index with
  | some i =>
    match a.options.get? i with
    | some opt =>
      if opt.has_choices && opt.selected then
        { a with options := a.options.set i opt.prev_choice }
      else a
    | none => a
  | none => a

/-- `App::handle_input_key` (src/tui.rs lines 108-132): Enter and Esc
both commit the edit buffer into the option under the cursor and return
to Normal mode, deselecting the option when the committed value is empty;
characters append to the buffer and Backspace removes its last
character. -/
def handle_input_key (a : App) (key : KeyCode) : App :=
  match key with
  | KeyCode.enter | KeyCode.esc =>
    let new_value := a.input_buffer
    let is_empty := new_value.isEmpty
    let options :=
      match a.selected_index with
      | some i =>
        match a.options.get? i with
        | some opt =>
          a.options.set i
            { opt with value := new_value
                       selected := if is_empty then false else opt.selected }
        | none => a.options
      | none => a.options
    { a with options := options, mode := Mode.normal, input_buffer := "" }
  | KeyCode.char c => { a with input_buffer := a.input_buffer.push c }
  | KeyCode.backspace => { a with input_buffer := popChar a.input_buffer }
  | _ => a

/-- The `e` handler of the Normal-mode event loop (src/tui.rs lines
178-189): enter Input mode seeded with the current value, but only when
the option under the cursor is selected and takes a value. -/
def request_edit (a : App) : App :=
  let should_edit :=
    (a.selected_option.map (fun opt => opt.takes_value && opt.selected)).getD false
  let value := (a.selected_option.map (fun opt => opt.value)).getD ""
  if should_edit then { a with mode := Mode.input, input_buffer := value }
  else a

/-- One iteration of the event loop (src/tui.rs lines 151-196), as a
state transition.  Terminal actions (quit, print, clipboard, execute)
break the real loop; here they record the request and leave the options
untouched. -/
def step (a : App) (e : KeyEvent) : App :=
  match a.mode with
  | Mode.normal =>
    match e.code with
    | KeyCode.esc => { a with should_quit := true }
    | KeyCode.enter => { a with output_mode := some OutputMode.print }
    | KeyCode.up => a.move_up
    | KeyCode.down => a.move_down
    | KeyCode.left => a.cycle_choice_prev
    | KeyCode.right => a.cycle_choice_next
    | KeyCode.char c =>
      if c = 'q' then { a with should_quit := true }
      else if c = 'c' && e.ctrl then { a with output_mode := some OutputMode.clipboard }
      else if c = 'x' && e.ctrl then { a with output_mode := some OutputMode.execute }
      else if c = 'k' then a.move_up
      else if c = 'j' then a.move_down
      else if c = 'h' then a.cycle_choice_prev
      else if c = 'l' then a.cycle_choice_next
      else if c = ' ' then a.toggle_selected
      else if c = 'e' then a.request_edit
      else a
    | _ => a
  | Mode.input => a.handle_input_key e.code

end App

/-!
### Spec-side definitions

The two definitions below restate parts of the specification in its own
words, to be compared with the source-derived definitions above.
-/

/-- The flag token of the specification of `to_arg`: the long form if
present, else the short form, else nothing. -/
def flagOf (o : CliOption) : Option String :=
  match o.long with
  | some l => some ("--" ++ l)
  | none =>
    match o.short with
    | some s => some ("-" ++ String.mk [s])
    | none => none

/-- The specification's deduplication: keep the first occurrence of each
flag identity — the pair `(short, long)` — dropping later duplicates and
preserving relative order.  To be compared with the source's key-string
based `dedupByKeyAux`. -/
def dedupByIdent :
    List (Option Char × Option String) → List CliOption → List CliOption
  | _, [] => []
  | seen, o :: rest =>
    if (o.short, o.long) ∈ seen then dedupByIdent seen rest
    else o :: dedupByIdent ((o.short, o.long) :: seen) rest

/-- The identity key string of one flag identity; `dedupKey o` is
`identKey (o.short, o.long)` by definition. -/
def identKey (p : Option Char × Option String) : String :=
  String.mk (debugOptChar p.1 ++ debugOptString p.2)

/-- The choice-index invariant of the data model: whenever `choices` is
present, `choice_index` is a valid index into it. -/
def ChoiceIndexInv (o : CliOption) : Prop :=
  ∀ cs, o.choices = some cs → o.choice_index < cs.length

/-- Decoder for the escaped string inside a `{:?}` key, up to the closing
unescaped double quote: inverse of `escDebugStrChar` concatenation, used
to prove the deduplication key injective. -/
def decodeStrKey : List Char → Option (List Char × List Char)
  | [] => none
  | c :: rest =>
    if c = '"' then some ([], rest)
    else if c = '\\' then
      match rest with
      | [] => none
      | d :: rest2 => (decodeStrKey rest2).map (fun x => (d :: x.1, x.2))
    else (decodeStrKey rest).map (fun x => (c :: x.1, x.2))

section SanityChecks

example :
    (CliOption.new (some 'v') (some ("verbose")) ("Enable") false none none).short
      = some 'v' := rfl

example :
    extract_choices ("Coloring [possible values: auto, always, never]")
      = ("Coloring", some [("auto"), ("always"), ("never")]) := rfl

example : extract_choices ("plain text") = ("plain text", none) := rfl

example :
    extract_choices ("X [values: a ,, b] Y") = ("X  Y", some [("a"), ("b")]) := rfl

example :
    extract_choices ("Coloring [Possible values: auto]")
      = ("Coloring [Possible values: auto]", none) := rfl

example : extract_choices ("bad [values:  ] end") = ("bad [values:  ] end", none) := rfl

example :
    parse_help ("  -v, --verbose    Enable verbose output")
      = [CliOption.new (some 'v') (some ("verbose")) ("Enable verbose output")
          false none none] := rfl

example :
    parse_help ("  -o, --output <FILE>    Output file")
      = [CliOption.new (some 'o') (some ("output")) ("Output file") true
          (some ("FILE")) none] := rfl

example :
    parse_help ("  --color <WHEN>    Coloring [possible values: auto, always, never]")
      = [CliOption.new none (some ("color")) ("Coloring") true (some ("WHEN"))
          (some [("auto"), ("always"), ("never")])] := rfl

example :
    (parse_help ("  -a, --all    Show all\n  -a, --all    Dup line")).length = 1 := rfl

example : parse_help ("hello world\nno flags here") = [] := rfl

example :
    ({ CliOption.new (some 'v') (some ("verbose")) ("Enable") false none none
        with selected := true } : CliOption).to_arg = some ("--verbose") := rfl

example :
    ({ CliOption.new (some 'v') none ("Enable") false none none
        with selected := true } : CliOption).to_arg = some ("-v") := rfl

example : build_command [("ls")] [] = "ls" := rfl

end SanityChecks

/-!
## Helper lemmas
-/

lemma to_arg_of_not_selected {o : CliOption} (h : o.selected = false) :
    o.to_arg = none := by
  simp [CliOption.to_arg, h]

lemma to_arg_eq_of_flag {o : CliOption} {flag : String}
    (hsel : o.selected = true) (hflag : flagOf o = some flag) :
    o.to_arg =
      match o.current_choice with
      | some choice => some (flag ++ " " ++ choice)
      | none =>
        if o.takes_value && !o.value.isEmpty then some (flag ++ " " ++ o.value)
        else if o.takes_value then none
        else some flag := by
  unfold flagOf at hflag
  unfold CliOption.to_arg
  cases hl : o.long with
  | some l =>
    rw [hl] at hflag
    simp only [Option.some.injEq] at hflag
    simp [hsel, hl, hflag]
  | none =>
    rw [hl] at hflag
    cases hs : o.short with
    | some s =>
      rw [hs] at hflag
      simp only [Option.some.injEq] at hflag
      simp [hsel, hl, hs, hflag]
    | none =>
      rw [hs] at hflag
      simp at hflag

lemma foldl_push (options : List CliOption) (acc : List String) :
    options.foldl
      (fun parts opt => match opt.to_arg with
        | some arg => parts ++ [arg]
        | none => parts) acc
      = acc ++ options.filterMap CliOption.to_arg := by
  induction options generalizing acc with
  | nil => simp
  | cons o os ih =>
    cases h : o.to_arg with
    | some arg => simp [h, ih, List.filterMap_cons]
    | none => simp [h, ih, List.filterMap_cons]

/-!
## Claim theorems
-/

/-- Claim C1: for every `CliOption`, `to_arg` returns nothing when
`selected` is false; otherwise the flag token is the long form if present,
else the short form; if `choices` is present the result is the flag token
plus the choice at `choice_index`; else if `takes_value` and `value` is
non-empty the result is the flag token plus `value`; else if `takes_value`
and `value` is empty the result is nothing; else the result is the bare
flag token. -/
theorem to_arg_spec (o : CliOption) :
    (o.selected = false → o.to_arg = none) ∧
    (∀ flag : String, o.selected = true → flagOf o = some flag →
      ((∀ cs c, o.choices = some cs → cs.get? o.choice_index = some c →
          o.to_arg = some (flag ++ " " ++ c)) ∧
       (o.choices = none → o.takes_value = true → o.value ≠ "" →
          o.to_arg = some (flag ++ " " ++ o.value)) ∧
       (o.choices = none → o.takes_value = true → o.value = "" →
          o.to_arg = none) ∧
       (o.choices = none → o.takes_value = false → o.to_arg = some flag))) := by
  refine ⟨fun h => to_arg_of_not_selected h, fun flag hsel hflag => ⟨?_, ?_, ?_, ?_⟩⟩
  · intro cs c hcs hc
    rw [to_arg_eq_of_flag hsel hflag]
    rw [List.get?_eq_getElem?] at hc
    simp [CliOption.current_choice, hcs, hc]
  · intro hcs htv hv
    rw [to_arg_eq_of_flag hsel hflag]
    have hne : o.value.isEmpty = false := by
      cases hb : o.value.isEmpty
      · rfl
      · exact absurd ((String.isEmpty_iff o.value).mp hb) hv
    simp [CliOption.current_choice, hcs, htv, hne]
  · intro hcs htv hv
    rw [to_arg_eq_of_flag hsel hflag]
    have he : o.value.isEmpty = true := (String.isEmpty_iff o.value).mpr hv
    simp [CliOption.current_choice, hcs, htv, he]
  · intro hcs htv
    rw [to_arg_eq_of_flag hsel hflag]
    simp [CliOption.current_choice, hcs, htv]

/-- Witness for `to_arg_spec`: every branch of the claim exercised on an
explicit concrete option. -/
theorem to_arg_spec_witness :
    ({ short := some 'v', long := some ("verbose"), description := "",
       takes_value := false, value_hint := none, selected := false,
       value := "", choices := none, choice_index := 0 } : CliOption).to_arg
        = none ∧
    ({ short := none, long := some ("color"), description := "",
       takes_value := true, value_hint := none, selected := true,
       value := "", choices := some [("auto"), ("always")],
       choice_index := 1 } : CliOption).to_arg = some ("--color always") ∧
    ({ short := some 'o', long := none, description := "",
       takes_value := true, value_hint := none, selected := true,
       value := ("out.txt"), choices := none, choice_index := 0 }
        : CliOption).to_arg = some ("-o out.txt") ∧
    ({ short := some 'o', long := none, description := "",
       takes_value := true, value_hint := none, selected := true,
       value := "", choices := none, choice_index := 0 } : CliOption).to_arg
        = none ∧
    ({ short := some 'v', long := none, description := "",
       takes_value := false, value_hint := none, selected := true,
       value := "", choices := none, choice_index := 0 } : CliOption).to_arg
        = some ("-v") := by
  refine ⟨?_, ?_, ?_, ?_, ?_⟩
  · exact (to_arg_spec _).1 rfl
  · exact (((to_arg_spec
        ⟨none, some ("color"), "", true, none, true, "", some [("auto"), ("always")], 1⟩).2
        ("--color") rfl rfl).1) [("auto"), ("always")] ("always") rfl rfl
  · exact (((to_arg_spec
        ⟨some 'o', none, "", true, none, true, ("out.txt"), none, 0⟩).2
        ("-o") rfl rfl).2.1) rfl rfl (by decide)
  · exact (((to_arg_spec
        ⟨some 'o', none, "", true, none, true, "", none, 0⟩).2
        ("-o") rfl rfl).2.2.1) rfl rfl rfl
  · exact (((to_arg_spec
        ⟨some 'v', none, "", false, none, true, "", none, 0⟩).2
        ("-v") rfl rfl).2.2.2) rfl rfl

/-- Claim C10: an option whose `short` and `long` are both absent yields
no argument from `to_arg`, even when selected and regardless of
`takes_value`, `value` or `choices`. -/
theorem to_arg_none_of_flagless (o : CliOption)
    (hs : o.short = none) (hl : o.long = none) : o.to_arg = none := by
  cases hsel : o.selected
  · simp [CliOption.to_arg, hsel]
  · simp [CliOption.to_arg, hsel, hs, hl]

/-- Witness for `to_arg_none_of_flagless`: a selected, value-carrying,
choice-carrying option with no flags yields no argument. -/
theorem to_arg_none_of_flagless_witness :
    ({ short := none, long := none, description := "", takes_value := true,
       value_hint := none, selected := true, value := ("v"),
       choices := some [("a")], choice_index := 0 } : CliOption).to_arg = none :=
  to_arg_none_of_flagless _ rfl rfl

/-- Claim C2: the assembled command equals the base tokens followed by
`to_arg` of every option, in the option list's order, joined by single
spaces; with base `["ls"]` and no option selected the result is exactly
`"ls"`.  The output is a pure function of the option list in its
extraction order, so it never depends on toggle order. -/
theorem build_command_spec (base_command : List String) (options : List CliOption) :
    build_command base_command options
      = String.intercalate (" ") (base_command ++ options.filterMap CliOption.to_arg) ∧
    ((∀ o ∈ options, o.selected = false) → build_command [("ls")] options = "ls") := by
  constructor
  · simp only [build_command, foldl_push]
  · intro h
    have hf : options.filterMap CliOption.to_arg = [] := by
      rw [List.filterMap_eq_nil_iff]
      intro o ho
      exact to_arg_of_not_selected (h o ho)
    simp only [build_command, foldl_push, hf, List.append_nil]
    rfl

/-- Witness for `build_command_spec`: a list with one unselected option
assembles to exactly the base command. -/
theorem build_command_spec_witness :
    build_command [("ls")]
      [CliOption.new (some 'a') (some ("all")) ("Show all") false none none]
      = "ls" := by
  refine (build_command_spec [("ls")] _).2 ?_
  intro o ho
  rw [List.mem_singleton] at ho
  subst ho
  rfl

lemma has_choices_eq {o : CliOption} {cs : List String} (hcs : o.choices = some cs) :
    o.has_choices = !cs.isEmpty := by
  simp [CliOption.has_choices, hcs]

lemma next_choice_eq {o : CliOption} {cs : List String} (hcs : o.choices = some cs)
    (hne : cs.isEmpty = false) :
    o.next_choice = { o with choice_index := (o.choice_index + 1) % cs.length } := by
  simp [CliOption.next_choice, hcs, hne]

lemma prev_choice_eq {o : CliOption} {cs : List String} (hcs : o.choices = some cs)
    (hne : cs.isEmpty = false) :
    o.prev_choice
      = { o with choice_index :=
            if o.choice_index = 0 then cs.length - 1 else o.choice_index - 1 } := by
  simp [CliOption.prev_choice, hcs, hne]

/-- Claim C7: in Normal mode, cycling the choice left or right applies the
cyclic update to `choice_index` of the option under the cursor if and only
if that option is both selected and has a non-empty choices list —
otherwise the state is unchanged — and cycling forward from the last
choice index wraps to index 0. -/
theorem cycle_choice_spec (a : App) (i : Nat) (o : CliOption)
    (hi : a.selected_index = some i) (ho : a.options.get? i = some o) :
    (¬ (o.selected = true ∧ o.has_choices = true) →
        a.cycle_choice_next = a ∧ a.cycle_choice_prev = a) ∧
    (∀ cs, o.selected = true → o.has_choices = true → o.choices = some cs →
        (a.cycle_choice_next
            = { a with
                options := a.options.set i
                  ({ o with choice_index := (o.choice_index + 1) % cs.length }) } ∧
         a.cycle_choice_prev
            = { a with
                options := a.options.set i
                  ({ o with choice_index :=
                      if o.choice_index = 0 then cs.length - 1
                      else o.choice_index - 1 }) } ∧
         (o.choice_index = cs.length - 1 → (o.next_choice).choice_index = 0))) := by
  have hi2 : a.list_state = some i := hi
  have ho2 : a.options[i]? = some o := by
    rw [← List.get?_eq_getElem?]
    exact ho
  constructor
  · intro hn
    have hn2 : ¬ (o.has_choices = true ∧ o.selected = true) := fun h => hn ⟨h.2, h.1⟩
    constructor
    · simp [App.cycle_choice_next, App.selected_index, hi2, ho2, hn2]
    · simp [App.cycle_choice_prev, App.selected_index, hi2, ho2, hn2]
  · intro cs hsel hhc hcs
    have hne : cs.isEmpty = false := by
      rw [has_choices_eq hcs] at hhc
      cases he : cs.isEmpty
      · rfl
      · rw [he] at hhc
        exact absurd hhc (by decide)
    have hcond2 : o.has_choices = true ∧ o.selected = true := ⟨hhc, hsel⟩
    refine ⟨?_, ?_, ?_⟩
    · simp [App.cycle_choice_next, App.selected_index, hi2, ho2, hcond2,
        next_choice_eq hcs hne]
    · simp [App.cycle_choice_prev, App.selected_index, hi2, ho2, hcond2,
        prev_choice_eq hcs hne]
    · intro hlast
      rw [next_choice_eq hcs hne]
      have hlen : 0 < cs.length := by
        cases cs
        · simp at hne
        · simp
      show (o.choice_index + 1) % cs.length = 0
      rw [hlast, Nat.sub_add_cancel hlen]
      exact Nat.mod_self _

/-- Witness for `cycle_choice_spec`: cycling forward from the last index
of a selected three-choice option wraps to 0, and cycling on an
unselected option is a no-op. -/
theorem cycle_choice_spec_witness :
    ((⟨none, some ("color"), "", true, none, true, "",
        some [("auto"), ("always"), ("never")], 2⟩ : CliOption).next_choice).choice_index
      = 0 ∧
    (App.new [⟨none, some ("color"), "", true, none, false, "",
        some [("auto")], 0⟩] [("git")]).cycle_choice_next
      = App.new [⟨none, some ("color"), "", true, none, false, "",
        some [("auto")], 0⟩] [("git")] := by
  constructor
  · exact ((cycle_choice_spec
      (App.new [⟨none, some ("color"), "", true, none, true, "",
        some [("auto"), ("always"), ("never")], 2⟩] [("git")]) 0 _ rfl rfl).2
      [("auto"), ("always"), ("never")] rfl rfl rfl).2.2 rfl
  · exact ((cycle_choice_spec
      (App.new [⟨none, some ("color"), "", true, none, false, "",
        some [("auto")], 0⟩] [("git")]) 0 _ rfl rfl).1 (by decide)).1

/-- Claim C6: committing the edit buffer with Enter or Esc (confirm or
cancel) writes the buffer into the option under the cursor and returns to
Normal mode, deselecting the option when the committed buffer is empty;
consequently, toggling on a value-taking, choice-less option whose stored
value is empty and immediately committing the (empty) seeded buffer
leaves that option deselected and unchanged. -/
theorem commit_edit_spec :
    (∀ (a : App) (k : KeyCode), (k = KeyCode.enter ∨ k = KeyCode.esc) →
      ((a.handle_input_key k).mode = Mode.normal ∧
       (a.handle_input_key k).input_buffer = "" ∧
       (∀ i o, a.selected_index = some i → a.options.get? i = some o →
          (a.handle_input_key k).options
            = a.options.set i
                ({ o with
                    value := a.input_buffer
                    selected := if a.input_buffer.isEmpty then false
                                else o.selected })))) ∧
    (∀ (a : App) (i : Nat) (o : CliOption),
        a.selected_index = some i → a.options.get? i = some o →
        o.selected = false → o.takes_value = true → o.has_choices = false →
        o.value = "" →
        ((a.toggle_selected.handle_input_key KeyCode.enter).options.get? i
            = some o ∧
         (a.toggle_selected.handle_input_key KeyCode.enter).mode
            = Mode.normal)) := by
  constructor
  · rintro a k (rfl | rfl) <;>
      refine ⟨rfl, rfl, ?_⟩ <;>
      · intro i o hi ho
        have hi2 : a.list_state = some i := hi
        have ho2 : a.options[i]? = some o := by
          rw [← List.get?_eq_getElem?]
          exact ho
        simp [App.handle_input_key, App.selected_index, hi2, ho2]
  · intro a i o hi ho hsel htv hhc hval
    have hi2 : a.list_state = some i := hi
    have ho2 : a.options[i]? = some o := by
      rw [← List.get?_eq_getElem?]
      exact ho
    obtain ⟨hlt, -⟩ := List.get?_eq_some.mp ho
    have hhc2 : (o.choices.map (fun c => !c.isEmpty)).getD false = false := hhc
    have htog : a.toggle_selected
        = { a with
            options := a.options.set i ({ o with selected := true })
            mode := Mode.input
            input_buffer := o.value } := by
      simp [App.toggle_selected, App.selected_index, hi2, ho2, hsel, htv,
        CliOption.has_choices, hhc2]
    have hback : ({ o with selected := false, value := "" } : CliOption) = o := by
      rw [← hsel, ← hval]
    have hset : (a.options.set i ({ o with selected := true, value := "" }))[i]?
        = some ({ o with selected := true, value := "" } : CliOption) :=
      List.getElem?_set_self hlt
    rw [htog, hval]
    constructor
    · simp [App.handle_input_key, App.selected_index, hi2, hset, List.set_set,
        List.get?_eq_getElem?, hback, List.getElem?_set_self hlt]
      rw [show (!("" : String).isEmpty) = false from rfl]
      exact hback
    · rfl

/-- Witness for `commit_edit_spec`: toggling on a value-taking option with
empty value and committing the empty buffer leaves it deselected, and an
Esc commit returns to Normal mode. -/
theorem commit_edit_spec_witness :
    ((App.new [⟨some 'o', none, "", true, none, false, "", none, 0⟩]
        [("cp")]).toggle_selected.handle_input_key KeyCode.enter).options.get? 0
      = some ⟨some 'o', none, "", true, none, false, "", none, 0⟩ ∧
    (({ App.new [⟨some 'o', none, "", true, none, false, "", none, 0⟩] [("cp")]
          with mode := Mode.input, input_buffer := ("dest") }).handle_input_key
        KeyCode.esc).mode = Mode.normal := by
  constructor
  · exact ((commit_edit_spec.2
      (App.new [⟨some 'o', none, "", true, none, false, "", none, 0⟩] [("cp")])
      0 ⟨some 'o', none, "", true, none, false, "", none, 0⟩
      rfl rfl rfl rfl rfl rfl)).1
  · exact ((commit_edit_spec.1 _ KeyCode.esc (Or.inr rfl))).1

/-- Claim C5: the two fallback passes run exactly when the primary pass
produced no options, and when they run, the results of both passes
(simple-pattern results, then long-only results) are merged into the
deduplicated output. -/
theorem fallback_iff_primary_empty (input : String) :
    (primaryOptions input ≠ [] →
        parse_help input = dedupByKeyAux [] (primaryOptions input)) ∧
    (primaryOptions input = [] →
        parse_help input
          = dedupByKeyAux []
              ((scanSimple input.toList).map mkSimpleOption
                ++ (scanLong input.toList).map mkLongOption)) := by
  constructor
  · intro h
    have he : (primaryOptions input).isEmpty = false := by
      cases hp : primaryOptions input with
      | nil => exact absurd hp h
      | cons x xs => rfl
    simp [parse_help, rawOptions, he]
  · intro h
    have he : (primaryOptions input).isEmpty = true := by
      rw [h]
      rfl
    simp [parse_help, rawOptions, fallbackOptions, he]

/-- Witness for `fallback_iff_primary_empty`: one input where the primary
pass finds an option and one where it finds none. -/
theorem fallback_iff_primary_empty_witness :
    parse_help ("  -v, --verbose  on")
      = dedupByKeyAux [] (primaryOptions ("  -v, --verbose  on")) ∧
    parse_help ("no options at all")
      = dedupByKeyAux []
          ((scanSimple ("no options at all").toList).map mkSimpleOption
            ++ (scanLong ("no options at all").toList).map mkLongOption) := by
  constructor
  · exact (fallback_iff_primary_empty _).1 (by decide)
  · exact (fallback_iff_primary_empty _).2 (by decide)

lemma escDebugChar_cases (c : Char) :
    (c = '\\' ∧ escDebugChar c = [ '\\', '\\' ]) ∨
    (c = '\'' ∧ escDebugChar c = [ '\\', '\'' ]) ∨
    (c ≠ '\\' ∧ c ≠ '\'' ∧ escDebugChar c = [c]) := by
  by_cases h1 : c = '\\'
  · exact Or.inl ⟨h1, by simp [escDebugChar, h1]⟩
  · by_cases h2 : c = '\''
    · exact Or.inr (Or.inl ⟨h2, by simp [escDebugChar, h1, h2]⟩)
    · exact Or.inr (Or.inr ⟨h1, h2, by simp [escDebugChar, h1, h2]⟩)

lemma debugOptChar_append_inj {s1 s2 : Option Char} {r1 r2 : List Char}
    (h : debugOptChar s1 ++ r1 = debugOptChar s2 ++ r2) : s1 = s2 ∧ r1 = r2 := by
  cases s1 with
  | none =>
    cases s2 with
    | none =>
      refine ⟨rfl, ?_⟩
      simpa [debugOptChar] using h
    | some c2 => simp [debugOptChar] at h
  | some c1 =>
    cases s2 with
    | none => simp [debugOptChar] at h
    | some c2 =>
      rcases escDebugChar_cases c1 with ⟨hc1, he1⟩ | ⟨hc1, he1⟩ | ⟨hc1, hc1b, he1⟩ <;>
        rcases escDebugChar_cases c2 with ⟨hc2, he2⟩ | ⟨hc2, he2⟩ | ⟨hc2, hc2b, he2⟩ <;>
        simp [debugOptChar, he1, he2] at h <;>
        simp_all

lemma escDebugStrChar_cases (c : Char) :
    (c = '\\' ∧ escDebugStrChar c = [ '\\', '\\' ]) ∨
    (c = '"' ∧ escDebugStrChar c = [ '\\', '"' ]) ∨
    (c ≠ '\\' ∧ c ≠ '"' ∧ escDebugStrChar c = [c]) := by
  by_cases h1 : c = '\\'
  · exact Or.inl ⟨h1, by simp [escDebugStrChar, h1]⟩
  · by_cases h2 : c = '"'
    · exact Or.inr (Or.inl ⟨h2, by simp [escDebugStrChar, h1, h2]⟩)
    · exact Or.inr (Or.inr ⟨h1, h2, by simp [escDebugStrChar, h1, h2]⟩)

lemma decodeStrKey_quote (r : List Char) : decodeStrKey ('"' :: r) = some ([], r) := by
  unfold decodeStrKey
  rw [if_pos rfl]

lemma decodeStrKey_backslash (d : Char) (r : List Char) :
    decodeStrKey ('\\' :: d :: r)
      = (decodeStrKey r).map (fun x => (d :: x.1, x.2)) := rfl

lemma decodeStrKey_other {c : Char} (hc1 : c ≠ '"') (hc2 : c ≠ '\\')
    (r : List Char) :
    decodeStrKey (c :: r) = (decodeStrKey r).map (fun x => (c :: x.1, x.2)) := by
  cases r with
  | nil =>
    unfold decodeStrKey
    rw [if_neg hc1, if_neg hc2]
    rfl
  | cons d rest =>
    conv_lhs => unfold decodeStrKey
    rw [if_neg hc1, if_neg hc2]

lemma decodeStrKey_encode :
    ∀ (x r : List Char),
      decodeStrKey (x.flatMap escDebugStrChar ++ '"' :: r) = some (x, r) := by
  intro x
  induction x with
  | nil =>
    intro r
    exact decodeStrKey_quote r
  | cons a as ih =>
    intro r
    rcases escDebugStrChar_cases a with ⟨ha, he⟩ | ⟨ha, he⟩ | ⟨ha, hab, he⟩
    · subst ha
      rw [List.flatMap_cons, he]
      simp only [List.cons_append, List.nil_append]
      rw [decodeStrKey_backslash, ih]
      rfl
    · subst ha
      rw [List.flatMap_cons, he]
      simp only [List.cons_append, List.nil_append]
      rw [decodeStrKey_backslash, ih]
      rfl
    · rw [List.flatMap_cons, he]
      simp only [List.cons_append, List.nil_append]
      rw [decodeStrKey_other hab ha, ih]
      rfl

lemma escDebugStr_append_inj {x y r1 r2 : List Char}
    (h : x.flatMap escDebugStrChar ++ '"' :: r1
        = y.flatMap escDebugStrChar ++ '"' :: r2) :
    x = y ∧ r1 = r2 := by
  have h1 := decodeStrKey_encode x r1
  rw [h, decodeStrKey_encode y r2] at h1
  simp only [Option.some.injEq, Prod.mk.injEq] at h1
  exact ⟨h1.1.symm, h1.2.symm⟩

lemma debugOptString_inj {s1 s2 : Option String}
    (h : debugOptString s1 = debugOptString s2) : s1 = s2 := by
  cases s1 with
  | none =>
    cases s2 with
    | none => rfl
    | some t => simp [debugOptString] at h
  | some s =>
    cases s2 with
    | none => simp [debugOptString] at h
    | some t =>
      simp only [debugOptString, List.cons_append, List.append_assoc,
        List.cons.injEq, true_and] at h
      have h2 : s.toList.flatMap escDebugStrChar ++ '"' :: [')']
          = t.toList.flatMap escDebugStrChar ++ '"' :: [')'] := by
        simpa using h
      obtain ⟨h3, -⟩ := escDebugStr_append_inj h2
      have : s.data = t.data := h3
      exact congrArg some (String.ext this)

lemma identKey_injective {p q : Option Char × Option String}
    (h : identKey p = identKey q) : p = q := by
  unfold identKey at h
  have h2 : debugOptChar p.1 ++ debugOptString p.2
      = debugOptChar q.1 ++ debugOptString q.2 := by
    injection h
  obtain ⟨h3, h4⟩ := debugOptChar_append_inj h2
  obtain ⟨p1, p2⟩ := p
  obtain ⟨q1, q2⟩ := q
  simp only at h3 h4
  rw [h3, debugOptString_inj h4]

lemma dedupKey_eq_identKey (o : CliOption) :
    dedupKey o = identKey (o.short, o.long) := rfl

lemma dedupByKeyAux_eq_ident :
    ∀ (l : List CliOption) (seen : List (Option Char × Option String)),
      dedupByKeyAux (seen.map identKey) l = dedupByIdent seen l := by
  intro l
  induction l with
  | nil => intro seen; rfl
  | cons o os ih =>
    intro seen
    by_cases hm : (o.short, o.long) ∈ seen
    · have hk : dedupKey o ∈ seen.map identKey := by
        rw [dedupKey_eq_identKey]
        exact List.mem_map_of_mem identKey hm
      simp only [dedupByKeyAux, dedupByIdent, if_pos hk, if_pos hm]
      exact ih seen
    · have hk : dedupKey o ∉ seen.map identKey := by
        intro hc
        rcases List.mem_map.mp hc with ⟨p, hp, he⟩
        rw [dedupKey_eq_identKey] at he
        exact hm (identKey_injective he ▸ hp)
      simp only [dedupByKeyAux, dedupByIdent, if_neg hk, if_neg hm]
      refine congrArg (o :: ·) ?_
      have h2 := ih ((o.short, o.long) :: seen)
      rw [List.map_cons, ← dedupKey_eq_identKey] at h2
      exact h2

lemma dedupByIdent_sublist :
    ∀ (l : List CliOption) (seen : List (Option Char × Option String)),
      List.Sublist (dedupByIdent seen l) l := by
  intro l
  induction l with
  | nil => intro seen; simp [dedupByIdent]
  | cons o os ih =>
    intro seen
    by_cases hm : (o.short, o.long) ∈ seen
    · simp only [dedupByIdent, if_pos hm]
      exact (ih seen).cons o
    · simp only [dedupByIdent, if_neg hm]
      exact (ih _).cons₂ o

lemma dedupByIdent_ident_not_seen :
    ∀ (l : List CliOption) (seen : List (Option Char × Option String))
      (o : CliOption), o ∈ dedupByIdent seen l → (o.short, o.long) ∉ seen := by
  intro l
  induction l with
  | nil => intro seen o ho; simp [dedupByIdent] at ho
  | cons x xs ih =>
    intro seen o ho
    by_cases hm : (x.short, x.long) ∈ seen
    · rw [dedupByIdent, if_pos hm] at ho
      exact ih seen o ho
    · rw [dedupByIdent, if_neg hm] at ho
      rcases List.mem_cons.mp ho with ho2 | ho2
      · subst ho2
        exact hm
      · intro hc
        exact ih _ o ho2 (List.mem_cons_of_mem _ hc)

lemma dedupByIdent_pairwise :
    ∀ (l : List CliOption) (seen : List (Option Char × Option String)),
      List.Pairwise (fun a b => (a.short, a.long) ≠ (b.short, b.long))
        (dedupByIdent seen l) := by
  intro l
  induction l with
  | nil => intro seen; simp [dedupByIdent]
  | cons x xs ih =>
    intro seen
    by_cases hm : (x.short, x.long) ∈ seen
    · rw [dedupByIdent, if_pos hm]
      exact ih seen
    · rw [dedupByIdent, if_neg hm]
      refine List.Pairwise.cons ?_ (ih _)
      intro b hb he
      have := dedupByIdent_ident_not_seen xs _ b hb
      exact this (he ▸ List.mem_cons_self _ _)

/-- Claim C4: for every help text the extractor's output has
pairwise-distinct `(short, long)` identities; the key-string based retain
of the source equals the first-occurrence filter on identities (so only
the first occurrence of each identity is kept), and the retained options
appear in their original relative order (the output is a sublist of the
candidate sequence). -/
theorem parse_help_dedup (input : String) :
    parse_help input = dedupByIdent [] (rawOptions input) ∧
    List.Pairwise (fun a b => (a.short, a.long) ≠ (b.short, b.long))
      (parse_help input) ∧
    List.Sublist (parse_help input) (rawOptions input) := by
  have h : parse_help input = dedupByIdent [] (rawOptions input) := by
    have h2 := dedupByKeyAux_eq_ident (rawOptions input) []
    simpa [parse_help] using h2
  refine ⟨h, ?_, ?_⟩
  · rw [h]
    exact dedupByIdent_pairwise _ _
  · rw [h]
    exact dedupByIdent_sublist _ _

lemma extract_choices_snd_ne_nil (d : String) :
    ∀ cs, (extract_choices d).2 = some cs → cs ≠ [] := by
  intro cs h hnil
  subst hnil
  unfold extract_choices at h
  split at h
  · dsimp only at h
    split at h
    · rename_i hne
      simp only at h
      injection h with h2
      rw [h2] at hne
      simp at hne
    · simp at h
  · simp at h

lemma mkPrimOption_inv {cap : PrimCap} {o : CliOption}
    (h : mkPrimOption cap = some o) :
    o.choice_index = 0 ∧ ∀ cs, o.choices = some cs → cs ≠ [] := by
  unfold mkPrimOption at h
  dsimp only at h
  split at h
  · injection h with h2
    subst h2
    exact ⟨rfl, fun cs hcs => extract_choices_snd_ne_nil _ cs hcs⟩
  · exact absurd h (by simp)

lemma mkSimpleOption_inv (cap : Char × List Char) :
    (mkSimpleOption cap).choice_index = 0 ∧
    ∀ cs, (mkSimpleOption cap).choices = some cs → cs ≠ [] :=
  ⟨rfl, fun cs hcs => extract_choices_snd_ne_nil _ cs hcs⟩

lemma mkLongOption_inv (cap : List Char × Option (List Char) × List Char) :
    (mkLongOption cap).choice_index = 0 ∧
    ∀ cs, (mkLongOption cap).choices = some cs → cs ≠ [] :=
  ⟨rfl, fun cs hcs => extract_choices_snd_ne_nil _ cs hcs⟩

lemma mem_of_mem_dedupByKeyAux :
    ∀ (l : List CliOption) (seen : List String) (o : CliOption),
      o ∈ dedupByKeyAux seen l → o ∈ l := by
  intro l
  induction l with
  | nil => intro seen o ho; simp [dedupByKeyAux] at ho
  | cons x xs ih =>
    intro seen o ho
    rw [dedupByKeyAux] at ho
    split at ho
    · exact List.mem_cons_of_mem _ (ih _ _ ho)
    · rcases List.mem_cons.mp ho with h | h
      · exact h ▸ List.mem_cons_self _ _
      · exact List.mem_cons_of_mem _ (ih _ _ h)

lemma rawOptions_inv (input : String) :
    ∀ o ∈ rawOptions input,
      o.choice_index = 0 ∧ ∀ cs, o.choices = some cs → cs ≠ [] := by
  intro o ho
  unfold rawOptions at ho
  split at ho
  · unfold fallbackOptions at ho
    rcases List.mem_append.mp ho with h | h
    · rcases List.mem_map.mp h with ⟨cap, -, he⟩
      exact he ▸ mkSimpleOption_inv cap
    · rcases List.mem_map.mp h with ⟨cap, -, he⟩
      exact he ▸ mkLongOption_inv cap
  · unfold primaryOptions at ho
    rcases List.mem_filterMap.mp ho with ⟨cap, -, he⟩
    exact mkPrimOption_inv he

lemma parse_help_inv (input : String) :
    ∀ o ∈ parse_help input,
      o.choice_index = 0 ∧ ∀ cs, o.choices = some cs → cs ≠ [] := by
  intro o ho
  exact rawOptions_inv input o
    (mem_of_mem_dedupByKeyAux (rawOptions input) [] o ho)

lemma next_choice_inv {o : CliOption} (h : ChoiceIndexInv o) :
    ChoiceIndexInv o.next_choice := by
  intro cs hcs
  cases hc : o.choices with
  | none =>
    have hno : o.next_choice = o := by simp [CliOption.next_choice, hc]
    rw [hno] at hcs ⊢
    rw [hcs] at hc
    exact absurd hc (by simp)
  | some cs0 =>
    have he : cs0.isEmpty = false ∨ cs0.isEmpty = true := by
      cases cs0.isEmpty
      · exact Or.inl rfl
      · exact Or.inr rfl
    rcases he with he | he
    · have hnext := next_choice_eq hc he
      rw [hnext] at hcs ⊢
      have hcs2 : o.choices = some cs := hcs
      rw [hc] at hcs2
      injection hcs2 with hcs3
      subst hcs3
      show (o.choice_index + 1) % cs0.length < cs0.length
      apply Nat.mod_lt
      cases cs0
      · simp at he
      · simp
    · have hno : o.next_choice = o := by simp [CliOption.next_choice, hc, he]
      rw [hno] at hcs ⊢
      exact h cs hcs

lemma prev_choice_inv {o : CliOption} (h : ChoiceIndexInv o) :
    ChoiceIndexInv o.prev_choice := by
  intro cs hcs
  cases hc : o.choices with
  | none =>
    have hno : o.prev_choice = o := by simp [CliOption.prev_choice, hc]
    rw [hno] at hcs ⊢
    rw [hcs] at hc
    exact absurd hc (by simp)
  | some cs0 =>
    have he : cs0.isEmpty = false ∨ cs0.isEmpty = true := by
      cases cs0.isEmpty
      · exact Or.inl rfl
      · exact Or.inr rfl
    rcases he with he | he
    · have hprev := prev_choice_eq hc he
      rw [hprev] at hcs ⊢
      have hcs2 : o.choices = some cs := hcs
      rw [hc] at hcs2
      injection hcs2 with hcs3
      subst hcs3
      have hlen : 0 < cs0.length := by
        cases cs0
        · simp at he
        · simp
      show (if o.choice_index = 0 then cs0.length - 1 else o.choice_index - 1)
          < cs0.length
      split
      · omega
      · have := h cs0 hc
        omega
    · have hno : o.prev_choice = o := by simp [CliOption.prev_choice, hc, he]
      rw [hno] at hcs ⊢
      exact h cs hcs

lemma choiceInv_set {l : List CliOption} {i : Nat} {v : CliOption}
    (hl : ∀ o ∈ l, ChoiceIndexInv o) (hv : ChoiceIndexInv v) :
    ∀ o ∈ l.set i v, ChoiceIndexInv o := by
  intro o ho
  rcases List.mem_or_eq_of_mem_set ho with h | h
  · exact hl o h
  · exact h ▸ hv

lemma sameChoices_inv {o o2 : CliOption} (hc : o2.choices = o.choices)
    (hi : o2.choice_index = o.choice_index) (h : ChoiceIndexInv o) :
    ChoiceIndexInv o2 := by
  intro cs hcs
  rw [hi]
  exact h cs (hc ▸ hcs)

lemma toggle_selected_inv {a : App} (hl : ∀ o ∈ a.options, ChoiceIndexInv o) :
    ∀ o ∈ a.toggle_selected.options, ChoiceIndexInv o := by
  unfold App.toggle_selected
  cases hsi : a.selected_index with
  | none => dsimp only; exact hl
  | some i =>
    dsimp only
    cases hgo : a.options.get? i with
    | none => dsimp only; exact hl
    | some opt =>
      dsimp only
      have hv : ChoiceIndexInv { opt with selected := !opt.selected } :=
        sameChoices_inv rfl rfl (hl opt (List.get?_mem hgo))
      split
      · exact choiceInv_set hl hv
      · exact choiceInv_set hl hv

lemma handle_input_key_inv {a : App} (k : KeyCode)
    (hl : ∀ o ∈ a.options, ChoiceIndexInv o) :
    ∀ o ∈ (a.handle_input_key k).options, ChoiceIndexInv o := by
  unfold App.handle_input_key
  cases k with
  | enter =>
    dsimp only
    cases hsi : a.selected_index with
    | none => dsimp only; exact hl
    | some i =>
      dsimp only
      cases hgo : a.options.get? i with
      | none => dsimp only; exact hl
      | some opt =>
        dsimp only
        exact choiceInv_set hl
          (sameChoices_inv rfl rfl (hl opt (List.get?_mem hgo)))
  | esc =>
    dsimp only
    cases hsi : a.selected_index with
    | none => dsimp only; exact hl
    | some i =>
      dsimp only
      cases hgo : a.options.get? i with
      | none => dsimp only; exact hl
      | some opt =>
        dsimp only
        exact choiceInv_set hl
          (sameChoices_inv rfl rfl (hl opt (List.get?_mem hgo)))
  | char c => exact hl
  | backspace => exact hl
  | up => exact hl
  | down => exact hl
  | left => exact hl
  | right => exact hl
  | other => exact hl

lemma cycle_choice_next_inv {a : App} (hl : ∀ o ∈ a.options, ChoiceIndexInv o) :
    ∀ o ∈ a.cycle_choice_next.options, ChoiceIndexInv o := by
  unfold App.cycle_choice_next
  cases hsi : a.selected_index with
  | none => dsimp only; exact hl
  | some i =>
    dsimp only
    cases hgo : a.options.get? i with
    | none => dsimp only; exact hl
    | some opt =>
      dsimp only
      split
      · exact choiceInv_set hl (next_choice_inv (hl opt (List.get?_mem hgo)))
      · exact hl

lemma cycle_choice_prev_inv {a : App} (hl : ∀ o ∈ a.options, ChoiceIndexInv o) :
    ∀ o ∈ a.cycle_choice_prev.options, ChoiceIndexInv o := by
  unfold App.cycle_choice_prev
  cases hsi : a.selected_index with
  | none => dsimp only; exact hl
  | some i =>
    dsimp only
    cases hgo : a.options.get? i with
    | none => dsimp only; exact hl
    | some opt =>
      dsimp only
      split
      · exact choiceInv_set hl (prev_choice_inv (hl opt (List.get?_mem hgo)))
      · exact hl

lemma move_up_inv {a : App} (hl : ∀ o ∈ a.options, ChoiceIndexInv o) :
    ∀ o ∈ a.move_up.options, ChoiceIndexInv o := by
  unfold App.move_up
  cases hsi : a.selected_index with
  | none => dsimp only; exact hl
  | some i =>
    dsimp only
    split
    · exact hl
    · exact hl

lemma move_down_inv {a : App} (hl : ∀ o ∈ a.options, ChoiceIndexInv o) :
    ∀ o ∈ a.move_down.options, ChoiceIndexInv o := by
  unfold App.move_down
  cases hsi : a.selected_index with
  | none => dsimp only; exact hl
  | some i =>
    dsimp only
    split
    · exact hl
    · exact hl

lemma request_edit_inv {a : App} (hl : ∀ o ∈ a.options, ChoiceIndexInv o) :
    ∀ o ∈ a.request_edit.options, ChoiceIndexInv o := by
  unfold App.request_edit
  dsimp only
  split
  · exact hl
  · exact hl

lemma step_inv {a : App} (e : KeyEvent)
    (hl : ∀ o ∈ a.options, ChoiceIndexInv o) :
    ∀ o ∈ (a.step e).options, ChoiceIndexInv o := by
  unfold App.step
  cases hm : a.mode with
  | input => dsimp only; exact handle_input_key_inv e.code hl
  | normal =>
    dsimp only
    cases hc : e.code with
    | esc => exact hl
    | enter => exact hl
    | up => exact move_up_inv hl
    | down => exact move_down_inv hl
    | left => exact cycle_choice_prev_inv hl
    | right => exact cycle_choice_next_inv hl
    | backspace => exact hl
    | other => exact hl
    | char c =>
      dsimp only
      repeat' split
      all_goals first
        | exact hl
        | exact move_up_inv hl
        | exact move_down_inv hl
        | exact cycle_choice_prev_inv hl
        | exact cycle_choice_next_inv hl
        | exact toggle_selected_inv hl
        | exact request_edit_inv hl

lemma foldl_step_inv :
    ∀ (events : List KeyEvent) (a : App),
      (∀ o ∈ a.options, ChoiceIndexInv o) →
      ∀ o ∈ (events.foldl App.step a).options, ChoiceIndexInv o := by
  intro events
  induction events with
  | nil => intro a h; exact h
  | cons e es ih =>
    intro a h
    exact ih _ (step_inv e h)

/-- Claim C8: extraction only stores non-empty choice lists and
initializes `choice_index` to 0, so the index is valid whenever choices
are present; and the validity of `choice_index` is preserved by every
sequence of interaction-engine steps starting from the extracted
options. -/
theorem choice_index_invariant :
    (∀ (input : String), ∀ o ∈ parse_help input,
        ∀ cs, o.choices = some cs → cs ≠ [] ∧ o.choice_index < cs.length) ∧
    (∀ (input : String) (base : List String) (events : List KeyEvent),
        ∀ o ∈ (events.foldl App.step (App.new (parse_help input) base)).options,
          ChoiceIndexInv o) := by
  have hbase : ∀ (input : String), ∀ o ∈ parse_help input, ChoiceIndexInv o := by
    intro input o ho cs hcs
    obtain ⟨hidx, hne⟩ := parse_help_inv input o ho
    rw [hidx]
    exact List.length_pos.mpr (hne cs hcs)
  constructor
  · intro input o ho cs hcs
    exact ⟨(parse_help_inv input o ho).2 cs hcs, hbase input o ho cs hcs⟩
  · intro input base events
    exact foldl_step_inv events _ (hbase input)

/-- Witness for `choice_index_invariant`: a concrete two-choice option
extracted from one help line has a valid index, and the index stays valid
after a toggling-then-cycling event sequence. -/
theorem choice_index_invariant_witness :
    ([("a"), ("b")] ≠ ([] : List String) ∧ (0 : Nat) < 2) ∧
    (∀ o ∈ (([⟨KeyCode.char ' ', false⟩, ⟨KeyCode.right, false⟩] :
          List KeyEvent).foldl App.step
        (App.new (parse_help ("  -c  x [values: a, b]")) [("git")])).options,
      ChoiceIndexInv o) := by
  constructor
  · exact choice_index_invariant.1 ("  -c  x [values: a, b]")
      (CliOption.new (some 'c') none ("x") true none (some [("a"), ("b")]))
      (by rw [show parse_help ("  -c  x [values: a, b]")
            = [CliOption.new (some 'c') none ("x") true none
                (some [("a"), ("b")])] from rfl]
          exact List.mem_singleton.mpr rfl)
      [("a"), ("b")] rfl
  · exact choice_index_invariant.2 ("  -c  x [values: a, b]") [("git")] _

/-- Claim C9: `parse_help` is a total function — for every input text it
returns a (possibly empty) list of options, and zero options is an
ordinary result: when no pattern matches anywhere in the text the result
is exactly the empty list. -/
theorem parse_help_total (input : String) :
    (∃ opts : List CliOption, parse_help input = opts) ∧
    (scanPrimary input.toList = [] → scanSimple input.toList = [] →
      scanLong input.toList = [] → parse_help input = []) := by
  refine ⟨⟨parse_help input, rfl⟩, ?_⟩
  intro hp hs hl
  have h1 : primaryOptions input = [] := by
    unfold primaryOptions
    rw [hp]
    rfl
  have h2 : fallbackOptions input = [] := by
    unfold fallbackOptions
    rw [hs, hl]
    rfl
  simp [parse_help, rawOptions, h1, h2]
  rfl

/-- Witness for `parse_help_total`: a text with no matching line parses
to the empty option list. -/
theorem parse_help_total_witness :
    parse_help ("hello world\nno flags here") = [] :=
  (parse_help_total ("hello world\nno flags here")).2 rfl rfl rfl

lemma takeWhile_append_all {α : Type} (p : α → Bool) {l1 : List α} (l2 : List α)
    (h : ∀ a ∈ l1, p a = true) :
    (l1 ++ l2).takeWhile p = l1 ++ l2.takeWhile p := by
  induction l1 with
  | nil => simp
  | cons a as ih =>
    have ha := h a (List.mem_cons_self a as)
    simp only [List.cons_append, List.takeWhile_cons, ha, if_true]
    rw [ih (fun b hb => h b (List.mem_cons_of_mem a hb))]

lemma capturePart_canonical {body post : List Char}
    (h2 : ']' ∉ body) (h3 : body ≠ [])
    (h4 : ∀ c, body.head? = some c → c.isWhitespace = false) :
    capturePart (' ' :: (body ++ ']' :: post)) = some (body, post) := by
  have hbody : ∀ a ∈ body, (fun c => decide (c ≠ ']')) a = true := by
    intro a ha
    simp only [decide_eq_true_eq, ne_eq]
    intro hcontra
    exact h2 (hcontra ▸ ha)
  have hp : (' ' :: (body ++ ']' :: post)).takeWhile (fun c => c ≠ ']')
      = ' ' :: body := by
    simp only [List.takeWhile_cons]
    rw [if_pos (by decide)]
    rw [takeWhile_append_all _ _ hbody]
    simp [List.takeWhile_cons]
  have hws : body.takeWhile Char.isWhitespace = [] := by
    cases hb : body with
    | nil => rfl
    | cons b bs =>
      have hbws := h4 b (by rw [hb]; rfl)
      simp [List.takeWhile_cons, hbws]
  have hw : (' ' :: body).takeWhile Char.isWhitespace = [ ' ' ] := by
    rw [List.takeWhile_cons]
    rw [if_pos (by decide), hws]
  have hlen1 : 1 ≤ body.length := by
    cases body
    · exact absurd rfl h3
    · simp
  have hdrop : (' ' :: (body ++ ']' :: post)).drop ((' ' :: body).length)
      = ']' :: post := by
    show (body ++ ']' :: post).drop body.length = ']' :: post
    exact List.drop_left body (']' :: post)
  have hk : min (([ ' ' ] : List Char).length) ((' ' :: body).length - 1) = 1 := by
    simp
    omega
  simp only [capturePart, hp]
  rw [hdrop, hw, hk]
  rfl

lemma matchValuesPart_canonical {body post : List Char}
    (h2 : ']' ∉ body) (h3 : body ≠ [])
    (h4 : ∀ c, body.head? = some c → c.isWhitespace = false) :
    matchValuesPart ('v' :: 'a' :: 'l' :: 'u' :: 'e' :: 's' :: ':' :: ' ' ::
        (body ++ ']' :: post)) = some (body, post) := by
  unfold matchValuesPart
  rw [show dropLit [ 'v', 'a', 'l', 'u', 'e' ]
      ('v' :: 'a' :: 'l' :: 'u' :: 'e' :: 's' :: ':' :: ' ' ::
        (body ++ ']' :: post))
      = some ('s' :: ':' :: ' ' :: (body ++ ']' :: post)) from by simp [dropLit]]
  rw [Option.some_bind]
  rw [show valuesColon ('s' :: ':' :: ' ' :: (body ++ ']' :: post))
      = some (' ' :: (body ++ ']' :: post)) from rfl]
  rw [Option.some_bind]
  exact capturePart_canonical h2 h3 h4

lemma matchChoicesBody_values {body post : List Char}
    (h2 : ']' ∉ body) (h3 : body ≠ [])
    (h4 : ∀ c, body.head? = some c → c.isWhitespace = false) :
    matchChoicesBody ('v' :: 'a' :: 'l' :: 'u' :: 'e' :: 's' :: ':' :: ' ' ::
        (body ++ ']' :: post)) = some (body, post) := by
  unfold matchChoicesBody
  rw [show dropLit [ 'p', 'o', 's', 's', 'i', 'b', 'l', 'e' ]
      ('v' :: 'a' :: 'l' :: 'u' :: 'e' :: 's' :: ':' :: ' ' ::
        (body ++ ']' :: post)) = none from by simp [dropLit]]
  rw [Option.none_bind, Option.none_or]
  exact matchValuesPart_canonical h2 h3 h4

lemma matchChoicesBody_possible {body post : List Char}
    (h2 : ']' ∉ body) (h3 : body ≠ [])
    (h4 : ∀ c, body.head? = some c → c.isWhitespace = false) :
    matchChoicesBody ('p' :: 'o' :: 's' :: 's' :: 'i' :: 'b' :: 'l' :: 'e' ::
        ' ' :: 'v' :: 'a' :: 'l' :: 'u' :: 'e' :: 's' :: ':' :: ' ' ::
        (body ++ ']' :: post)) = some (body, post) := by
  unfold matchChoicesBody
  rw [show dropLit [ 'p', 'o', 's', 's', 'i', 'b', 'l', 'e' ]
      ('p' :: 'o' :: 's' :: 's' :: 'i' :: 'b' :: 'l' :: 'e' ::
        ' ' :: 'v' :: 'a' :: 'l' :: 'u' :: 'e' :: 's' :: ':' :: ' ' ::
        (body ++ ']' :: post))
      = some (' ' :: 'v' :: 'a' :: 'l' :: 'u' :: 'e' :: 's' :: ':' :: ' ' ::
        (body ++ ']' :: post)) from by simp [dropLit]]
  rw [Option.some_bind]
  rw [show dropWs1 (' ' :: 'v' :: 'a' :: 'l' :: 'u' :: 'e' :: 's' :: ':' :: ' ' ::
        (body ++ ']' :: post))
      = some ('v' :: 'a' :: 'l' :: 'u' :: 'e' :: 's' :: ':' :: ' ' ::
        (body ++ ']' :: post)) from by simp [dropWs1, List.dropWhile]]
  rw [Option.some_bind]
  rw [matchValuesPart_canonical h2 h3 h4]
  exact Option.or_some

lemma findChoices_cons_bracket {l cap after : List Char}
    (h : matchChoicesBody l = some (cap, after)) :
    findChoices ('[' :: l) = some ([], cap, after) := by
  have hstep : findChoices ('[' :: l)
      = ((if ('[' : Char) = '[' then matchChoicesBody l else none).map
          (fun x => (([] : List Char), x.1, x.2))).or
        ((findChoices l).map (fun x => ('[' :: x.1, x.2.1, x.2.2))) := rfl
  rw [hstep, if_pos rfl, h, Option.map_some']
  exact Option.or_some

lemma findChoices_no_bracket_append {pre rest : List Char} (hpre : '[' ∉ pre) :
    findChoices (pre ++ rest)
      = (findChoices rest).map (fun x => (pre ++ x.1, x.2.1, x.2.2)) := by
  induction pre with
  | nil =>
    cases h : findChoices rest with
    | none => simp [h]
    | some x => simp [h]
  | cons c cs ih =>
    have hc : ¬ (c = '[') := fun hcc => hpre (hcc ▸ List.mem_cons_self _ _)
    have hpre2 : '[' ∉ cs := fun hin => hpre (List.mem_cons_of_mem _ hin)
    have hstep : findChoices (c :: (cs ++ rest))
        = ((if c = '[' then matchChoicesBody (cs ++ rest) else none).map
            (fun x => (([] : List Char), x.1, x.2))).or
          ((findChoices (cs ++ rest)).map
            (fun x => (c :: x.1, x.2.1, x.2.2))) := rfl
    show findChoices (c :: (cs ++ rest)) = _
    rw [hstep, if_neg hc, Option.map_none', Option.none_or, ih hpre2]
    cases h : findChoices rest with
    | none => simp [h]
    | some x => simp [h]

lemma extract_choices_found {d : String} {before cap after : List Char}
    (h : findChoices d.toList = some (before, cap, after))
    (hne : ((((splitOnComma cap).map trimChars).filter
        (fun s => !s.isEmpty)).map String.mk) ≠ []) :
    extract_choices d
      = (String.mk (trimChars (before ++ after)),
         some ((((splitOnComma cap).map trimChars).filter
            (fun s => !s.isEmpty)).map String.mk)) := by
  have hemp : ((((splitOnComma cap).map trimChars).filter
      (fun s => !s.isEmpty)).map String.mk).isEmpty = false := by
    cases hx : (((splitOnComma cap).map trimChars).filter
        (fun s => !s.isEmpty)).map String.mk with
    | nil => exact absurd hx hne
    | cons y ys => rfl
  unfold extract_choices
  rw [h]
  split
  next b2 c2 a2 heq =>
    simp only [Option.some.injEq, Prod.mk.injEq] at heq
    obtain ⟨rfl, rfl, rfl⟩ := heq
    simp only [hemp, Bool.not_false, if_true]
  next heq => exact absurd heq (by simp)

/-- Claim C3 counterexample: the choices pattern in the source is
case-sensitive (the regex has no `(?i)` flag), so a capitalized
annotation is not recognized, contradicting the claimed case-insensitive
matching which would yield choices `["auto", "always", "never"]`. -/
theorem extract_choices_case_counterexample :
    extract_choices ("Coloring [Possible values: auto, always, never]")
      = ("Coloring [Possible values: auto, always, never]", none) := rfl

/-- Claim C3 (amended): the extractor searches for the first bracketed
enumeration of the form `[possible values: a, b, c]` or
`[values: a, b, c]` written case-sensitively in lower case; when found,
the captured list is split on commas, entries trimmed, empties dropped,
and if at least one entry remains, the choices are that ordered list and
the bracketed fragment is removed from the description with residual
whitespace trimmed. -/
theorem extract_choices_amended (pre body post kw : String)
    (hkw : kw = ("[possible values: ") ∨ kw = ("[values: "))
    (hpre : '[' ∉ pre.toList)
    (hbody1 : ']' ∉ body.toList)
    (hbody2 : body ≠ "")
    (hbody3 : ∀ c, body.toList.head? = some c → c.isWhitespace = false) :
    ∀ cs, cs = (((splitOnComma body.toList).map trimChars).filter
        (fun s => !s.isEmpty)).map String.mk →
    cs ≠ [] →
    extract_choices (pre ++ kw ++ body ++ ("]") ++ post)
      = (String.mk (trimChars (pre.toList ++ post.toList)), some cs) := by
  intro cs hcseq hne
  have hb2 : body.toList ≠ [] := fun hx => hbody2 (String.ext hx)
  rcases hkw with hkw | hkw <;> subst hkw
  · have hdata : (pre ++ ("[possible values: ") ++ body ++ ("]") ++ post).toList
        = pre.toList ++ ('[' :: 'p' :: 'o' :: 's' :: 's' :: 'i' :: 'b' :: 'l' ::
            'e' :: ' ' :: 'v' :: 'a' :: 'l' :: 'u' :: 'e' :: 's' :: ':' :: ' ' ::
            (body.toList ++ ']' :: post.toList)) := by
      show (pre ++ ("[possible values: ") ++ body ++ ("]") ++ post).data = _
      simp only [String.data_append, List.append_assoc]
      rfl
    have hfind : findChoices
        (pre ++ ("[possible values: ") ++ body ++ ("]") ++ post).toList
        = some (pre.toList, body.toList, post.toList) := by
      rw [hdata, findChoices_no_bracket_append hpre,
        findChoices_cons_bracket (matchChoicesBody_possible hbody1 hb2 hbody3)]
      simp
    rw [extract_choices_found hfind (hcseq ▸ hne), hcseq]
  · have hdata : (pre ++ ("[values: ") ++ body ++ ("]") ++ post).toList
        = pre.toList ++ ('[' :: 'v' :: 'a' :: 'l' :: 'u' :: 'e' :: 's' :: ':' ::
            ' ' :: (body.toList ++ ']' :: post.toList)) := by
      show (pre ++ ("[values: ") ++ body ++ ("]") ++ post).data = _
      simp only [String.data_append, List.append_assoc]
      rfl
    have hfind : findChoices
        (pre ++ ("[values: ") ++ body ++ ("]") ++ post).toList
        = some (pre.toList, body.toList, post.toList) := by
      rw [hdata, findChoices_no_bracket_append hpre,
        findChoices_cons_bracket (matchChoicesBody_values hbody1 hb2 hbody3)]
      simp
    rw [extract_choices_found hfind (hcseq ▸ hne), hcseq]

/-- Witness for `extract_choices_amended`: the claim's own example,
instantiated through the amended theorem, and the `[values: ...]` form. -/
theorem extract_choices_amended_witness :
    extract_choices ("Coloring [possible values: auto, always, never]")
      = ("Coloring", some [("auto"), ("always"), ("never")]) ∧
    extract_choices ("Output [values: json, text] here")
      = ("Output  here", some [("json"), ("text")]) := by
  constructor
  · have h := extract_choices_amended ("Coloring ") ("auto, always, never") ""
      ("[possible values: ") (Or.inl rfl) (by decide) (by decide) (by decide)
      (by intro c hc
          injection hc with h2
          rw [← h2]
          decide)
      [("auto"), ("always"), ("never")] (by rfl) (by decide)
    exact h
  · have h := extract_choices_amended ("Output ") ("json, text") (" here")
      ("[values: ") (Or.inr rfl) (by decide) (by decide) (by decide)
      (by intro c hc
          injection hc with h2
          rw [← h2]
          decide)
      [("json"), ("text")] (by rfl) (by decide)
    exact h
